import Mathlib

/-!
Verification of `json_keys_case_changer` (src/lib.rs): a recursive
rewriter of JSON object keys into a target naming convention, with an
optional manual-rename table matched by key or by value.

The embedding follows the source:
* `Value` embeds `serde_json::Value` (the `Number` payload is abstracted
  as `Int`, since the converter only clones numbers and never inspects
  them); `Object` is an insertion-ordered association list, as the spec
  states for the tree type ("insertion order preserved").
* `mapInsert` embeds the order-preserving `Map::insert`: replace the
  value in place when the key is present, append otherwise.
* `Case` embeds the opaque case-conversion capability of the external
  `convert_case` collaborator as a string transform; `snake_case` is a
  concrete instance fixed by the spec's examples.
* `RenameMap` (`HashMap<&str, &str>`) is an association list; the
  `HashMap` key-uniqueness invariant appears as a `nodup_keys`
  hypothesis where a theorem needs it.
-/

namespace JsonKeysCaseChanger

/-- Embeds `serde_json::Value`. -/
inductive Value where
  | null : Value
  | bool : Bool → Value
  | number : Int → Value
  | str : String → Value
  | arr : List Value → Value
  | obj : List (String × Value) → Value

/-- `pub type JsonMap = Map<String, Value>;` — an insertion-ordered map. -/
abbrev JsonMap := List (String × Value)

/-- `pub type RenameMap<'a> = HashMap<&'a str, &'a str>;` -/
abbrev RenameMap := List (String × String)

/-- `pub enum RenameBehavior { ByKey, ByValue }` -/
inductive RenameBehavior where
  | byKey : RenameBehavior
  | byValue : RenameBehavior
deriving Repr, DecidableEq

/-- `impl Default for RenameBehavior` returns `ByKey`. -/
def RenameBehavior.default : RenameBehavior := .byKey

/-- The opaque `convert_case::Case` capability, embedded as the string
transform it denotes (the core only needs `key.to_case(case)`). -/
def Case := String → String

/-- `key.to_case(case)` of the `convert_case` collaborator. -/
def to_case (key : String) (case : Case) : String := case key

/-- Modelled from the spec: the external `convert_case` crate's
`Case::Snake` transform is a black box here; this instance realizes the
spec's examples (`"userId" ↦ "user_id"`, `"anArray" ↦ "an_array"`,
`"myCamel" ↦ "my_camel"`, lowercase/underscore keys unchanged). -/
def snake_case : Case := fun s =>
  s.data.foldl
    (fun acc ch =>
      if ch.isUpper then
        (if acc.isEmpty then acc else acc ++ "_") ++ String.singleton ch.toLower
      else acc ++ String.singleton ch)
    ""

/-- Order-preserving map insert (`serde_json::Map::insert` with
insertion order preserved, as the spec's data model states): replace in
place when the key is present, append otherwise. -/
def mapInsert (m : JsonMap) (k : String) (v : Value) : JsonMap :=
  match m with
  | [] => [(k, v)]
  | (k', v') :: rest =>
    if k' = k then (k', v) :: rest else (k', v') :: mapInsert rest k v

/-- `CaseChanger::determine_manual_case`: ByKey looks `key` up on the
key side of the table; ByValue scans for an entry whose value side
equals `key` and returns its key side. -/
def determine_manual_case (key : String) (manual_renames : RenameMap)
    (rename_behavior : RenameBehavior) : Option String :=
  match rename_behavior with
  | .byKey => (manual_renames.find? (fun p => p.1 = key)).map Prod.snd
  | .byValue => (manual_renames.find? (fun p => p.2 = key)).map Prod.fst

mutual

/-- `CaseChanger::internal_convert`: recursive traversal and rebuild. -/
def internal_convert (case : Case) (manual_renames : RenameMap)
    (rename_behavior : RenameBehavior) : Value → Value
  | .arr a => .arr (convert_list case manual_renames rename_behavior a)
  | .obj actual_json =>
      .obj (convert_entries case manual_renames rename_behavior actual_json [])
  | value => value

/-- The `Value::Array` loop of `internal_convert`: convert each element
in order. -/
def convert_list (case : Case) (manual_renames : RenameMap)
    (rename_behavior : RenameBehavior) : List Value → List Value
  | [] => []
  | deep_value :: rest =>
      internal_convert case manual_renames rename_behavior deep_value ::
        convert_list case manual_renames rename_behavior rest

/-- The `Value::Object` loop of `internal_convert`: for each entry,
convert the value (objects and arrays recursively, other values
cloned), resolve the key through `determine_manual_case` with the case
transform as fallback, and insert into the accumulating output map. -/
def convert_entries (case : Case) (manual_renames : RenameMap)
    (rename_behavior : RenameBehavior) :
    List (String × Value) → JsonMap → JsonMap
  | [], new_json => new_json
  | (key, value) :: rest, new_json =>
    let inner : Value :=
      match value with
      | .obj elem => internal_convert case manual_renames rename_behavior (.obj elem)
      | .arr elem => .arr (convert_list case manual_renames rename_behavior elem)
      | value => value
    let new_json' : JsonMap :=
      match determine_manual_case key manual_renames rename_behavior with
      | some k => mapInsert new_json k inner
      | none => mapInsert new_json (to_case key case) inner
    convert_entries case manual_renames rename_behavior rest new_json'

end

/-- The key the conversion gives an object entry: the manual override
when `determine_manual_case` finds one, else the case transform. -/
def resolved_key (case : Case) (manual_renames : RenameMap)
    (rename_behavior : RenameBehavior) (key : String) : String :=
  match determine_manual_case key manual_renames rename_behavior with
  | some k => k
  | none => to_case key case

/-- `pub struct CaseChanger<'a>`. -/
structure CaseChanger where
  json_in : Value
  case : Case
  manual_renames : RenameMap
  rename_behavior : RenameBehavior

/-- `CaseChanger::new`: always returns `Ok` (the error type `()` is
never produced; there is no root-shape validation). -/
def CaseChanger.new (json_obj : Value) (new_case : Case) :
    Except Unit CaseChanger :=
  .ok { json_in := json_obj
        case := new_case
        manual_renames := []
        rename_behavior := RenameBehavior.default }

/-- `CaseChanger::with_manual_renames`. -/
def CaseChanger.with_manual_renames (s : CaseChanger)
    (rename_list : RenameMap) : CaseChanger :=
  { s with manual_renames := rename_list }

/-- `CaseChanger::with_custom_rename_behavior`. -/
def CaseChanger.with_custom_rename_behavior (s : CaseChanger)
    (rename_behavior : RenameBehavior) : CaseChanger :=
  { s with rename_behavior := rename_behavior }

/-- `CaseChanger::convert(&mut self)`: embedded state-passing; the body
assigns no field of `self`, so the post-state equals the pre-state, and
the returned tree is `internal_convert` of a clone of the stored input. -/
def CaseChanger.convert (s : CaseChanger) : CaseChanger × Value :=
  (s, internal_convert s.case s.manual_renames s.rename_behavior s.json_in)

/-! ### Observations used to state the claims -/

/-- The shape of a tree: its nesting structure, array lengths and
element order, and non-object/non-array leaf values — everything except
object key strings. -/
inductive Shape where
  | null : Shape
  | bool : Bool → Shape
  | number : Int → Shape
  | str : String → Shape
  | arr : List Shape → Shape
  | obj : List Shape → Shape

mutual

/-- Erase object keys, keeping everything else. -/
def Value.shape : Value → Shape
  | .null => .null
  | .bool b => .bool b
  | .number n => .number n
  | .str s => .str s
  | .arr a => .arr (shape_list a)
  | .obj e => .obj (shape_entries e)

def shape_list : List Value → List Shape
  | [] => []
  | v :: vs => v.shape :: shape_list vs

def shape_entries : List (String × Value) → List Shape
  | [] => []
  | p :: rest => p.2.shape :: shape_entries rest

end

/-- A string list has pairwise-distinct members. -/
def nodup_keys : List String → Bool
  | [] => true
  | k :: rest => !(rest.contains k) && nodup_keys rest

mutual

/-- The tree is a well-formed JSON value: every object (at any depth)
has pairwise-distinct keys, as `serde_json::Map` guarantees. -/
def Value.wf : Value → Bool
  | .null => true
  | .bool _ => true
  | .number _ => true
  | .str _ => true
  | .arr a => wf_list a
  | .obj e => nodup_keys (e.map Prod.fst) && wf_entries e

def wf_list : List Value → Bool
  | [] => true
  | v :: vs => v.wf && wf_list vs

def wf_entries : List (String × Value) → Bool
  | [] => true
  | p :: rest => p.2.wf && wf_entries rest

end

mutual

/-- Every object key of the tree (at any depth) is left unchanged by
the case transform `c` — "already in convention C". -/
def Value.keys_fixed (c : Case) : Value → Bool
  | .null => true
  | .bool _ => true
  | .number _ => true
  | .str _ => true
  | .arr a => keys_fixed_list c a
  | .obj e => (e.map Prod.fst).all (fun k => to_case k c = k) && keys_fixed_entries c e

def keys_fixed_list (c : Case) : List Value → Bool
  | [] => true
  | v :: vs => v.keys_fixed c && keys_fixed_list c vs

def keys_fixed_entries (c : Case) : List (String × Value) → Bool
  | [] => true
  | p :: rest => p.2.keys_fixed c && keys_fixed_entries c rest

end

mutual

/-- In every object of the tree (at any depth), the resolved output
keys of the entries are pairwise distinct: no sibling keys collide
after conversion. -/
def Value.no_collisions (c : Case) (r : RenameMap) (b : RenameBehavior) : Value → Bool
  | .null => true
  | .bool _ => true
  | .number _ => true
  | .str _ => true
  | .arr a => no_collisions_list c r b a
  | .obj e =>
      nodup_keys (e.map (fun p => resolved_key c r b p.1)) &&
        no_collisions_entries c r b e

def no_collisions_list (c : Case) (r : RenameMap) (b : RenameBehavior) :
    List Value → Bool
  | [] => true
  | v :: vs => v.no_collisions c r b && no_collisions_list c r b vs

def no_collisions_entries (c : Case) (r : RenameMap) (b : RenameBehavior) :
    List (String × Value) → Bool
  | [] => true
  | p :: rest => p.2.no_collisions c r b && no_collisions_entries c r b rest

end

/-- Look a key up in an output map (first entry wins, as in
`serde_json::Map` access). -/
def map_get (m : JsonMap) (k : String) : Option Value :=
  (m.find? (fun p => p.1 = k)).map Prod.snd

/-- The entry list of an object value. -/
def obj_entries : Value → List (String × Value)
  | .obj e => e
  | _ => []

/-- The value the object loop ends up storing under output key `K`:
the converted value of the last input entry whose resolved key is `K`
(later writes shadow earlier ones). -/
def last_write (c : Case) (r : RenameMap) (b : RenameBehavior) :
    List (String × Value) → String → Option Value
  | [], _ => none
  | (k, v) :: rest, K =>
      match last_write c r b rest K with
      | some w => some w
      | none =>
          if resolved_key c r b k = K then some (internal_convert c r b v)
          else none

mutual

/-- Structural induction principle for the nested `Value` type. -/
theorem value_ind (P : Value → Prop) (h0 : P .null) (h1 : ∀ b, P (.bool b))
    (h2 : ∀ n, P (.number n)) (h3 : ∀ s, P (.str s))
    (h4 : ∀ l, (∀ v ∈ l, P v) → P (.arr l))
    (h5 : ∀ e, (∀ p ∈ e, P p.2) → P (.obj e)) : ∀ v, P v
  | .null => h0
  | .bool b => h1 b
  | .number n => h2 n
  | .str s => h3 s
  | .arr l => h4 l (list_ind P h0 h1 h2 h3 h4 h5 l)
  | .obj e => h5 e (entries_ind P h0 h1 h2 h3 h4 h5 e)

theorem list_ind (P : Value → Prop) (h0 : P .null) (h1 : ∀ b, P (.bool b))
    (h2 : ∀ n, P (.number n)) (h3 : ∀ s, P (.str s))
    (h4 : ∀ l, (∀ v ∈ l, P v) → P (.arr l))
    (h5 : ∀ e, (∀ p ∈ e, P p.2) → P (.obj e)) :
    ∀ l : List Value, ∀ v ∈ l, P v
  | [] => fun _ hv => nomatch hv
  | x :: xs => fun v hv =>
      match List.mem_cons.mp hv with
      | .inl h => h ▸ value_ind P h0 h1 h2 h3 h4 h5 x
      | .inr h => list_ind P h0 h1 h2 h3 h4 h5 xs v h

theorem entries_ind (P : Value → Prop) (h0 : P .null) (h1 : ∀ b, P (.bool b))
    (h2 : ∀ n, P (.number n)) (h3 : ∀ s, P (.str s))
    (h4 : ∀ l, (∀ v ∈ l, P v) → P (.arr l))
    (h5 : ∀ e, (∀ p ∈ e, P p.2) → P (.obj e)) :
    ∀ l : List (String × Value), ∀ p ∈ l, P p.2
  | [] => fun _ hp => nomatch hp
  | x :: xs => fun p hp =>
      match List.mem_cons.mp hp with
      | .inl h => h ▸ value_ind P h0 h1 h2 h3 h4 h5 x.2
      | .inr h => entries_ind P h0 h1 h2 h3 h4 h5 xs p h

end

/-! ### Helper lemmas -/

theorem convert_list_eq_map (c : Case) (r : RenameMap) (b : RenameBehavior) :
    ∀ l : List Value, convert_list c r b l = l.map (internal_convert c r b)
  | [] => rfl
  | v :: vs => by
      simp [convert_list, convert_list_eq_map c r b vs]

/-- The per-entry value conversion of the object loop agrees with the
top-level conversion: objects and arrays recurse, scalars are cloned,
and `internal_convert` on a scalar is that scalar. -/
theorem convert_entries_cons (c : Case) (r : RenameMap) (b : RenameBehavior)
    (k : String) (v : Value) (rest : List (String × Value)) (acc : JsonMap) :
    convert_entries c r b ((k, v) :: rest) acc =
      convert_entries c r b rest
        (mapInsert acc (resolved_key c r b k) (internal_convert c r b v)) := by
  cases hd : determine_manual_case k r b <;>
    cases v <;>
      simp [convert_entries, resolved_key, hd, internal_convert]

theorem nodup_keys_iff (l : List String) :
    nodup_keys l = true ↔ l.Nodup := by
  induction l with
  | nil => simp [nodup_keys]
  | cons k rest ih =>
      simp [nodup_keys, ih, List.contains, List.nodup_cons]

theorem mapInsert_append (k : String) (v : Value) :
    ∀ m : JsonMap, k ∉ m.map Prod.fst → mapInsert m k v = m ++ [(k, v)]
  | [], _ => rfl
  | (k', v') :: rest, h => by
      simp only [List.map_cons, List.mem_cons] at h
      push_neg at h
      simp [mapInsert, Ne.symm h.1, mapInsert_append k v rest h.2]

theorem map_get_cons (k₀ k' : String) (v₀ : Value) (m : JsonMap) :
    map_get ((k₀, v₀) :: m) k' = if k' = k₀ then some v₀ else map_get m k' := by
  by_cases h : k' = k₀
  · simp [map_get, List.find?, h]
  · simp [map_get, List.find?, h, Ne.symm h]

theorem map_get_mapInsert (k k' : String) (v : Value) :
    ∀ m : JsonMap,
      map_get (mapInsert m k v) k' = if k' = k then some v else map_get m k'
  | [] => by simp [mapInsert, map_get_cons]
  | (k₀, v₀) :: rest => by
      have ih := map_get_mapInsert k k' v rest
      by_cases h0 : k₀ = k
      · subst h0
        by_cases h : k' = k₀ <;> simp [mapInsert, map_get_cons, h]
      · have h0' : ¬k = k₀ := fun hh => h0 hh.symm
        by_cases h1 : k' = k₀ <;> by_cases h2 : k' = k
        · exact absurd (h1.symm.trans h2) h0
        all_goals simp [h2] at ih
        all_goals simp [mapInsert, h0, h0', map_get_cons, h1, h2, ih]

theorem determine_manual_case_nil (k : String) (b : RenameBehavior) :
    determine_manual_case k [] b = none := by
  cases b <;> rfl

/-- In a table with pairwise-distinct keys (the `HashMap` invariant),
an entry is determined by its key. -/
theorem mem_unique_of_nodup_fst :
    ∀ t : RenameMap, (t.map Prod.fst).Nodup →
      ∀ k v, (k, v) ∈ t → ∀ p ∈ t, p.1 = k → p = (k, v)
  | [] => fun _ _ _ hv => nomatch hv
  | q :: rest => fun hnd k v hv p hp hpk => by
      simp only [List.map_cons, List.nodup_cons] at hnd
      rcases List.mem_cons.mp hv with hq | hv'
      · rcases List.mem_cons.mp hp with hq' | hp'
        · rw [hq', ← hq]
        · exfalso
          apply hnd.1
          have hmem : p.1 ∈ rest.map Prod.fst := List.mem_map_of_mem Prod.fst hp'
          rw [hpk] at hmem
          have hq1 : q.1 = k := by rw [← hq]
          rw [hq1]
          exact hmem
      · rcases List.mem_cons.mp hp with hq' | hp'
        · exfalso
          apply hnd.1
          have hmem : (k : String) ∈ rest.map Prod.fst := by
            simpa using List.mem_map_of_mem Prod.fst hv'
          have hq1 : q.1 = k := hq' ▸ hpk
          rw [hq1]
          exact hmem
        · exact mem_unique_of_nodup_fst rest hnd.2 k v hv' p hp' hpk

theorem wf_list_iff (l : List Value) :
    wf_list l = true ↔ ∀ v ∈ l, v.wf = true := by
  induction l <;> simp [wf_list, *]

theorem wf_entries_iff (l : List (String × Value)) :
    wf_entries l = true ↔ ∀ p ∈ l, p.2.wf = true := by
  induction l <;> simp [wf_entries, *]

theorem keys_fixed_list_iff (c : Case) (l : List Value) :
    keys_fixed_list c l = true ↔ ∀ v ∈ l, v.keys_fixed c = true := by
  induction l <;> simp [keys_fixed_list, *]

theorem keys_fixed_entries_iff (c : Case) (l : List (String × Value)) :
    keys_fixed_entries c l = true ↔ ∀ p ∈ l, p.2.keys_fixed c = true := by
  induction l <;> simp [keys_fixed_entries, *]

theorem no_collisions_list_iff (c : Case) (r : RenameMap) (b : RenameBehavior)
    (l : List Value) :
    no_collisions_list c r b l = true ↔
      ∀ v ∈ l, v.no_collisions c r b = true := by
  induction l <;> simp [no_collisions_list, *]

theorem no_collisions_entries_iff (c : Case) (r : RenameMap) (b : RenameBehavior)
    (l : List (String × Value)) :
    no_collisions_entries c r b l = true ↔
      ∀ p ∈ l, p.2.no_collisions c r b = true := by
  induction l <;> simp [no_collisions_entries, *]

/-- When the resolved keys to come are distinct among themselves and
from the keys already inserted, the object loop appends exactly one
converted entry per input entry, in input order. -/
theorem convert_entries_append (c : Case) (r : RenameMap) (b : RenameBehavior) :
    ∀ (l : List (String × Value)) (acc : JsonMap),
      (acc.map Prod.fst ++ l.map fun p => resolved_key c r b p.1).Nodup →
      convert_entries c r b l acc =
        acc ++ l.map (fun p => (resolved_key c r b p.1, internal_convert c r b p.2))
  | [], acc => fun _ => by simp [convert_entries]
  | (k, v) :: rest, acc => fun h => by
      rw [convert_entries_cons]
      have hdis := (List.nodup_append.mp h).2.2
      have hk : resolved_key c r b k ∉ acc.map Prod.fst := by
        intro hmem
        exact absurd (List.mem_cons_self _ _) (hdis hmem)
      rw [mapInsert_append _ _ _ hk]
      have h' : ((acc ++ [(resolved_key c r b k, internal_convert c r b v)]).map
            Prod.fst ++ rest.map fun p => resolved_key c r b p.1).Nodup := by
        simpa [List.append_assoc] using h
      rw [convert_entries_append c r b rest _ h']
      simp

theorem map_get_convert_entries (c : Case) (r : RenameMap) (b : RenameBehavior) :
    ∀ (l : List (String × Value)) (acc : JsonMap) (K : String),
      map_get (convert_entries c r b l acc) K =
        match last_write c r b l K with
        | some w => some w
        | none => map_get acc K
  | [], acc, K => by simp [convert_entries, last_write]
  | (k, v) :: rest, acc, K => by
      rw [convert_entries_cons]
      rw [map_get_convert_entries c r b rest _ K]
      cases hl : last_write c r b rest K with
      | some w => simp [last_write, hl]
      | none =>
          simp only [last_write, hl, map_get_mapInsert]
          by_cases h : resolved_key c r b k = K
          · simp [h]
          · have h' : ¬K = resolved_key c r b k := fun hh => h hh.symm
            simp [h, h']

theorem last_write_append (c : Case) (r : RenameMap) (b : RenameBehavior)
    (K : String) :
    ∀ A B : List (String × Value),
      last_write c r b (A ++ B) K =
        match last_write c r b B K with
        | some w => some w
        | none => last_write c r b A K
  | [], B => by
      cases hB : last_write c r b B K <;> simp [last_write, hB]
  | (k, v) :: A, B => by
      have ih := last_write_append c r b K A B
      cases hB : last_write c r b B K <;>
        cases hA : last_write c r b A K <;>
          simp [last_write, List.cons_append, ih, hA, hB]

theorem last_write_none (c : Case) (r : RenameMap) (b : RenameBehavior)
    (K : String) :
    ∀ l : List (String × Value),
      (∀ p ∈ l, resolved_key c r b p.1 ≠ K) → last_write c r b l K = none
  | [] => fun _ => rfl
  | (k, v) :: rest => fun h => by
      have ih := last_write_none c r b K rest fun p hp => h p (List.mem_cons_of_mem _ hp)
      simp [last_write, ih, h (k, v) (List.mem_cons_self _ _)]

theorem shape_entries_map (f : String → String) (g : Value → Value) :
    ∀ l : List (String × Value),
      (∀ p ∈ l, (g p.2).shape = p.2.shape) →
      shape_entries (l.map fun p => (f p.1, g p.2)) = shape_entries l
  | [] => fun _ => rfl
  | p :: rest => fun h => by
      simp [shape_entries, h p (List.mem_cons_self _ _),
        shape_entries_map f g rest fun q hq => h q (List.mem_cons_of_mem _ hq)]

theorem shape_list_congr (g : Value → Value) :
    ∀ l : List Value,
      (∀ v ∈ l, (g v).shape = v.shape) →
      shape_list (l.map g) = shape_list l
  | [] => fun _ => rfl
  | v :: rest => fun h => by
      simp [shape_list, h v (List.mem_cons_self _ _),
        shape_list_congr g rest fun w hw => h w (List.mem_cons_of_mem _ hw)]

/-- Collision-free conversion preserves the shape of the tree. -/
theorem internal_convert_shape (c : Case) (r : RenameMap) (b : RenameBehavior) :
    ∀ v : Value, v.no_collisions c r b = true →
      (internal_convert c r b v).shape = v.shape := by
  refine value_ind _ ?_ ?_ ?_ ?_ ?_ ?_
  · intro _; rfl
  · intro _ _; rfl
  · intro _ _; rfl
  · intro _ _; rfl
  · intro l ih h
    simp only [Value.no_collisions] at h
    show (Value.arr (convert_list c r b l)).shape = (Value.arr l).shape
    rw [convert_list_eq_map]
    simp only [Value.shape]
    rw [shape_list_congr _ l
      fun v hv => ih v hv ((no_collisions_list_iff c r b l).mp h v hv)]
  · intro e ih h
    simp only [Value.no_collisions, Bool.and_eq_true] at h
    show (Value.obj (convert_entries c r b e [])).shape = (Value.obj e).shape
    rw [convert_entries_append c r b e []
      (by simpa using (nodup_keys_iff _).mp h.1)]
    simp only [Value.shape, List.nil_append]
    rw [shape_entries_map _ _ e
      fun p hp => ih p hp ((no_collisions_entries_iff c r b e).mp h.2 p hp)]

/-- With an empty rename table, conversion of a well-formed tree all of
whose keys are already in the target convention is the identity. -/
theorem internal_convert_id (c : Case) (b : RenameBehavior) :
    ∀ v : Value, v.wf = true → v.keys_fixed c = true →
      internal_convert c [] b v = v := by
  refine value_ind _ ?_ ?_ ?_ ?_ ?_ ?_
  · intro _ _; rfl
  · intro _ _ _; rfl
  · intro _ _ _; rfl
  · intro _ _ _; rfl
  · intro l ih hwf hfix
    simp only [Value.wf] at hwf
    simp only [Value.keys_fixed] at hfix
    show Value.arr (convert_list c [] b l) = Value.arr l
    rw [convert_list_eq_map]
    rw [List.map_congr_left fun v hv =>
      ih v hv ((wf_list_iff l).mp hwf v hv)
        ((keys_fixed_list_iff c l).mp hfix v hv)]
    simp
  · intro e ih hwf hfix
    simp only [Value.wf, Bool.and_eq_true] at hwf
    simp only [Value.keys_fixed, Bool.and_eq_true] at hfix
    have hfixed : ∀ p ∈ e, to_case p.1 c = p.1 := by
      intro p hp
      have := List.all_eq_true.mp hfix.1 p.1 (List.mem_map_of_mem Prod.fst hp)
      simpa using this
    have hres : ∀ p ∈ e, resolved_key c [] b p.1 = p.1 := by
      intro p hp
      simp [resolved_key, determine_manual_case_nil, hfixed p hp]
    show Value.obj (convert_entries c [] b e []) = Value.obj e
    have hmapres : (e.map fun p => resolved_key c [] b p.1) = e.map Prod.fst :=
      List.map_congr_left hres
    have hnodup : (([] : JsonMap).map Prod.fst ++
        e.map fun p : String × Value => resolved_key c [] b p.1).Nodup := by
      rw [List.map_nil, List.nil_append, hmapres]
      exact (nodup_keys_iff _).mp hwf.1
    rw [convert_entries_append c [] b e [] hnodup]
    have hid : ∀ p ∈ e,
        (resolved_key c [] b p.1, internal_convert c [] b p.2) = id p := by
      intro p hp
      have hv := ih p hp ((wf_entries_iff e).mp hwf.2 p hp)
        ((keys_fixed_entries_iff c e).mp hfix.2 p hp)
      simp [hres p hp, hv]
    have hmap : (e.map fun p =>
        (resolved_key c [] b p.1, internal_convert c [] b p.2)) = e.map id :=
      List.map_congr_left hid
    rw [hmap, List.map_id]
    simp

/-! ### Claim theorems -/

/-- C1 counterexample: the claim "for every input tree T, convert(T)
produces a tree with identical shape to T" is false as stated. With the
rename table {"k1" ↦ "x", "k2" ↦ "x"} in ByKey mode, the two sibling
entries of `{"k1": 1, "k2": 2}` both resolve to key "x" and merge, so
the output object has one entry where the input had two. -/
theorem C1_counterexample :
    (internal_convert (fun s => s) [("k1", "x"), ("k2", "x")] .byKey
        (.obj [("k1", .number 1), ("k2", .number 2)])).shape ≠
      (Value.obj [("k1", .number 1), ("k2", .number 2)]).shape := by
  have hv : internal_convert (fun s => s) [("k1", "x"), ("k2", "x")] .byKey
      (.obj [("k1", .number 1), ("k2", .number 2)]) =
      .obj [("x", .number 2)] := rfl
  rw [hv]
  intro h
  simp [Value.shape, shape_entries] at h

/-- C1 (amended): for every input tree T in which no two sibling object
keys (at any depth) resolve to the same output key, convert(T) produces
a tree with identical shape to T: the same nesting structure, the same
array lengths and element order, and equal non-object/non-array leaf
values; only the key strings of Objects differ. -/
theorem C1_shape_preservation (c : Case) (r : RenameMap) (b : RenameBehavior)
    (T : Value) (h : T.no_collisions c r b = true) :
    (internal_convert c r b T).shape = T.shape :=
  internal_convert_shape c r b T h

/-- C1 witness: a concrete collision-free conversion preserves shape. -/
theorem C1_shape_preservation_witness :
    (Value.obj [("myCamel", .bool true), ("anArray", .arr [.number 1])]
        ).no_collisions snake_case [] .byKey = true ∧
    (internal_convert snake_case [] .byKey
        (.obj [("myCamel", .bool true), ("anArray", .arr [.number 1])])).shape =
      (Value.obj [("myCamel", .bool true), ("anArray", .arr [.number 1])]).shape :=
  ⟨by decide, C1_shape_preservation snake_case [] .byKey _ (by decide)⟩

/-- C2: ByKey resolution returns the table value associated with the
key (exact, case-sensitive; present iff such an entry exists); ByValue
resolution returns the key side of an entry whose value side equals the
looked-up key, and finds one whenever one exists; with no override the
resolved key is the case transform of the key. -/
theorem C2_manual_case_resolution (t : RenameMap) (k : String) (c : Case)
    (hnodup : nodup_keys (t.map Prod.fst) = true) :
    (∀ v, determine_manual_case k t .byKey = some v ↔ (k, v) ∈ t)
  ∧ (∀ k', determine_manual_case k t .byValue = some k' → (k', k) ∈ t)
  ∧ ((∃ p ∈ t, p.2 = k) → ∃ k', determine_manual_case k t .byValue = some k')
  ∧ (determine_manual_case k t .byKey = none ↔ ∀ p ∈ t, p.1 ≠ k)
  ∧ (determine_manual_case k t .byValue = none ↔ ∀ p ∈ t, p.2 ≠ k)
  ∧ (∀ b, determine_manual_case k t b = none →
      resolved_key c t b k = to_case k c) := by
  have huniq := mem_unique_of_nodup_fst t ((nodup_keys_iff _).mp hnodup) k
  refine ⟨?_, ?_, ?_, ?_, ?_, ?_⟩
  · intro v
    constructor
    · intro h
      simp only [determine_manual_case, Option.map_eq_some'] at h
      obtain ⟨p, hp, hpv⟩ := h
      have hmem := List.mem_of_find?_eq_some hp
      have hpk := List.find?_some hp
      simp only [decide_eq_true_eq] at hpk
      have : p = (k, v) := by
        cases p
        simp_all
      exact this ▸ hmem
    · intro h
      cases hf : t.find? (fun p => p.1 = k) with
      | none =>
          exfalso
          have := List.find?_eq_none.mp hf (k, v) h
          simp at this
      | some p =>
          have hmem := List.mem_of_find?_eq_some hf
          have hpk := List.find?_some hf
          simp only [decide_eq_true_eq] at hpk
          have : p = (k, v) := huniq v h p hmem hpk
          simp [determine_manual_case, hf, this]
  · intro k' h
    simp only [determine_manual_case, Option.map_eq_some'] at h
    obtain ⟨p, hp, hpk⟩ := h
    have hmem := List.mem_of_find?_eq_some hp
    have hpv := List.find?_some hp
    simp only [decide_eq_true_eq] at hpv
    have : p = (k', k) := by
      cases p
      simp_all
    exact this ▸ hmem
  · rintro ⟨p, hp, hpv⟩
    cases hf : t.find? (fun q => q.2 = k) with
    | none =>
        exfalso
        have := List.find?_eq_none.mp hf p hp
        simp [hpv] at this
    | some q => exact ⟨q.1, by simp [determine_manual_case, hf]⟩
  · constructor
    · intro h p hp
      simp only [determine_manual_case, Option.map_eq_none'] at h
      have := List.find?_eq_none.mp h p hp
      simpa using this
    · intro h
      simp only [determine_manual_case, Option.map_eq_none']
      exact List.find?_eq_none.mpr fun p hp => by simp [h p hp]
  · constructor
    · intro h p hp
      simp only [determine_manual_case, Option.map_eq_none'] at h
      have := List.find?_eq_none.mp h p hp
      simpa using this
    · intro h
      simp only [determine_manual_case, Option.map_eq_none']
      exact List.find?_eq_none.mpr fun p hp => by simp [h p hp]
  · intro b h
    simp [resolved_key, h]

/-- C2 witness: in the table {"a" ↦ "b"}, ByKey lookup of "a" yields
the override "b". -/
theorem C2_manual_case_resolution_witness :
    determine_manual_case "a" [("a", "b")] .byKey = some "b" :=
  ((C2_manual_case_resolution [("a", "b")] "a" snake_case (by decide)).1
    "b").mpr (by simp)

/-- C3: whenever the rename table produces an override for a key, the
resolved output key is exactly the stored override, for every case
convention — the override replaces the automatic conversion and is
never itself case-converted; in particular `{"userId": 5}` with table
{"id" ↦ "userId"} in ByValue mode yields `{"id": 5}` under every
convention, snake_case included. -/
theorem C3_override_precedence (c : Case) (t : RenameMap) (b : RenameBehavior)
    (k ov : String) (h : determine_manual_case k t b = some ov) :
    resolved_key c t b k = ov
  ∧ (∀ c' : Case, internal_convert c' [("id", "userId")] .byValue
      (.obj [("userId", .number 5)]) = .obj [("id", .number 5)]) := by
  constructor
  · simp [resolved_key, h]
  · intro c'
    rfl

/-- C3 witness: the override "id" replaces snake_case("userId"). -/
theorem C3_override_precedence_witness :
    resolved_key snake_case [("id", "userId")] .byValue "userId" = "id" :=
  (C3_override_precedence snake_case [("id", "userId")] .byValue
    "userId" "id" (by decide)).1

/-- C4: when sibling keys resolve to the same output key `K`, the
surviving value under `K` is the converted value of the entry with the
later original iteration position (last-write-wins): here entry
`(k₂, v₂)` comes after `(k₁, v₁)`, both resolve to `K`, no later entry
resolves to `K`, and the output stores the conversion of `v₂`. -/
theorem C4_last_write_wins (c : Case) (r : RenameMap) (b : RenameBehavior)
    (K k₁ k₂ : String) (v₁ v₂ : Value) (l₁ l₂ l₃ : List (String × Value))
    (h₁ : resolved_key c r b k₁ = K) (h₂ : resolved_key c r b k₂ = K)
    (h₃ : ∀ p ∈ l₃, resolved_key c r b p.1 ≠ K) :
    map_get (obj_entries (internal_convert c r b
        (.obj (l₁ ++ (k₁, v₁) :: (l₂ ++ (k₂, v₂) :: l₃))))) K =
      some (internal_convert c r b v₂) := by
  show map_get (convert_entries c r b _ []) K = _
  rw [map_get_convert_entries]
  have hsuffix : last_write c r b ((k₂, v₂) :: l₃) K =
      some (internal_convert c r b v₂) := by
    simp [last_write, last_write_none c r b K l₃ h₃, h₂]
  have hmid : last_write c r b (l₂ ++ (k₂, v₂) :: l₃) K =
      some (internal_convert c r b v₂) := by
    rw [last_write_append]
    simp [hsuffix]
  have hcons : last_write c r b ((k₁, v₁) :: (l₂ ++ (k₂, v₂) :: l₃)) K =
      some (internal_convert c r b v₂) := by
    simp [last_write, hmid]
  rw [last_write_append]
  simp [hcons]

/-- C4 witness: in `{"aB": 1, "a_b": 2}` both keys snake_case-resolve
to "a_b" and the later value 2 survives. -/
theorem C4_last_write_wins_witness :
    map_get (obj_entries (internal_convert snake_case [] .byKey
        (.obj [("aB", .number 1), ("a_b", .number 2)]))) "a_b" =
      some (.number 2) := by
  have := C4_last_write_wins snake_case [] .byKey "a_b" "aB" "a_b"
    (.number 1) (.number 2) [] [] [] (by decide) (by decide) (by simp)
  simpa using this

/-- C5: the object loop visits entries in original insertion order,
recursively converts each value with the same convention, table and
mode, and (collisions apart) the output object lists exactly the pairs
(resolved key, converted value) in the same order as the input. -/
theorem C5_insertion_order (c : Case) (r : RenameMap) (b : RenameBehavior)
    (l : List (String × Value))
    (h : nodup_keys (l.map fun p : String × Value =>
        resolved_key c r b p.1) = true) :
    internal_convert c r b (.obj l) =
      .obj (l.map fun p : String × Value =>
        (resolved_key c r b p.1, internal_convert c r b p.2)) := by
  show Value.obj (convert_entries c r b l []) = _
  rw [convert_entries_append c r b l []
    (by simpa using (nodup_keys_iff _).mp h)]
  simp

/-- C5 witness: `{"myCamel": 1, "anArray": null}` converts entrywise in
order (note "myCamel" stays first even though "anArray" sorts before
it). -/
theorem C5_insertion_order_witness :
    internal_convert snake_case [] .byKey
        (.obj [("myCamel", .number 1), ("anArray", .null)]) =
      .obj [("my_camel", .number 1), ("an_array", .null)] :=
  (C5_insertion_order snake_case [] .byKey
    [("myCamel", .number 1), ("anArray", .null)] (by decide)).trans (by rfl)

/-- C6: arrays convert element by element in original order with the
length preserved; scalar and string elements (and scalar values
anywhere) are returned unchanged, never key-converted; in particular
`{"anArray": ["ObjectOne", "ObjectTwo"]}` under snake_case keeps the
string elements untouched. -/
theorem C6_array_elements (c : Case) (r : RenameMap) (b : RenameBehavior) :
    (∀ l : List Value, internal_convert c r b (.arr l) =
        .arr (l.map (internal_convert c r b)))
  ∧ (∀ l : List Value, (convert_list c r b l).length = l.length)
  ∧ internal_convert c r b .null = .null
  ∧ (∀ bv, internal_convert c r b (.bool bv) = .bool bv)
  ∧ (∀ n, internal_convert c r b (.number n) = .number n)
  ∧ (∀ s, internal_convert c r b (.str s) = .str s)
  ∧ internal_convert snake_case [] .byKey
      (.obj [("anArray", .arr [.str "ObjectOne", .str "ObjectTwo"])]) =
      .obj [("an_array", .arr [.str "ObjectOne", .str "ObjectTwo"])] := by
  refine ⟨?_, ?_, rfl, fun _ => rfl, fun _ => rfl, fun _ => rfl, rfl⟩
  · intro l
    show Value.arr (convert_list c r b l) = _
    rw [convert_list_eq_map]
  · intro l
    rw [convert_list_eq_map]
    simp

/-- C7: when every object key of a (well-formed) tree is already fixed
by the convention and the rename table is empty, conversion returns the
tree unchanged. -/
theorem C7_idempotence (c : Case) (b : RenameBehavior) (T : Value)
    (hwf : T.wf = true) (hfix : T.keys_fixed c = true) :
    internal_convert c [] b T = T :=
  internal_convert_id c b T hwf hfix

/-- C7 witness: a tree whose keys are already snake_case is returned
unchanged. -/
theorem C7_idempotence_witness :
    internal_convert snake_case [] .byKey
        (.obj [("my_key", .bool true), ("an_array", .arr [.str "X"])]) =
      .obj [("my_key", .bool true), ("an_array", .arr [.str "X"])] :=
  C7_idempotence snake_case .byKey _ (by decide) (by decide)

/-- C8: `convert()` mutates no converter state — the stored input tree,
convention, rename table and rename mode are unchanged — and a second
call on the resulting converter returns an equal output. -/
theorem C8_convert_pure (s : CaseChanger) :
    (s.convert).1 = s
  ∧ (s.convert).1.json_in = s.json_in
  ∧ (s.convert).1.case = s.case
  ∧ (s.convert).1.manual_renames = s.manual_renames
  ∧ (s.convert).1.rename_behavior = s.rename_behavior
  ∧ ((s.convert).1.convert).2 = (s.convert).2 :=
  ⟨rfl, rfl, rfl, rfl, rfl, rfl⟩

/-- C9: conversion is total — every `Value` variant has a defined
handling branch producing a complete output tree, and an output exists
for every input. -/
theorem C9_totality (c : Case) (r : RenameMap) (b : RenameBehavior) :
    internal_convert c r b .null = .null
  ∧ (∀ bv, internal_convert c r b (.bool bv) = .bool bv)
  ∧ (∀ n, internal_convert c r b (.number n) = .number n)
  ∧ (∀ s, internal_convert c r b (.str s) = .str s)
  ∧ (∀ l, internal_convert c r b (.arr l) = .arr (convert_list c r b l))
  ∧ (∀ e, internal_convert c r b (.obj e) =
      .obj (convert_entries c r b e []))
  ∧ (∀ v, ∃ w, internal_convert c r b v = w) :=
  ⟨rfl, fun _ => rfl, fun _ => rfl, fun _ => rfl, fun _ => rfl, fun _ => rfl,
    fun v => ⟨internal_convert c r b v, rfl⟩⟩

/-- C10: construction always succeeds — `new` returns `Ok` for every
root value and target case, with the default empty table and ByKey
mode — and conversion of a non-object root recurses uniformly: a root
array has its elements converted (as in the `root_array` test) and a
root scalar is returned unchanged. -/
theorem C10_new_always_ok (v : Value) (c : Case) :
    CaseChanger.new v c = .ok (CaseChanger.mk v c [] .byKey)
  ∧ (∀ l, internal_convert c [] .byKey (.arr l) =
      .arr (l.map (internal_convert c [] .byKey)))
  ∧ internal_convert c [] .byKey .null = .null
  ∧ (∀ bv, internal_convert c [] .byKey (.bool bv) = .bool bv)
  ∧ (∀ n, internal_convert c [] .byKey (.number n) = .number n)
  ∧ (∀ s, internal_convert c [] .byKey (.str s) = .str s)
  ∧ (∃ s, CaseChanger.new
        (.arr [.obj [("myCamel", .number 1)], .obj [("myCamel", .number 2)]])
        snake_case = .ok s ∧
      (s.convert).2 =
        .arr [.obj [("my_camel", .number 1)], .obj [("my_camel", .number 2)]]) := by
  refine ⟨rfl, ?_, rfl, fun _ => rfl, fun _ => rfl, fun _ => rfl,
    ⟨_, rfl, rfl⟩⟩
  intro l
  show Value.arr (convert_list c [] .byKey l) = _
  rw [convert_list_eq_map]

end JsonKeysCaseChanger
